import Mathlib

/-!
Shallow embedding of the distributed coordination layer of the
vision-finetune repository (src/dist.py and the teardown logic of
src/train.py), together with proofs of the specified properties.

Numeric buffers (torch tensors holding floats) are modelled as lists of
rationals, so elementwise arithmetic is exact; the collective transport
(torch.distributed) is modelled by its documented contract: all_gather
delivers the per-rank contributions ordered by ascending rank, and a
barrier releases a caller only once every rank of the group has entered
the matching barrier call.
-/

namespace VF

/-- A 1-dimensional numeric buffer (torch tensor of floats), modelled with
exact rational entries. -/
abbrev Vec := List ℚ

/-! ## DistributedContext state (src/dist.py lines 11-28)

The ambient state consulted by is_dist / world_size / rank / is_main:
whether the torch.distributed package is available, whether a process
group has been initialised, and — when live — the group rank and world
size reported by the backend.  The field rank_lt records the contract of
the external backend that a reported rank always lies below the reported
world size. -/
structure TorchDistState where
  available : Bool
  inited : Bool
  groupRank : Nat
  groupWorldSize : Nat
  rank_lt : groupRank < groupWorldSize

/-- Embeds dist.py is_dist: dist.is_available() and dist.is_initialized(). -/
def is_dist (s : TorchDistState) : Bool :=
  s.available && s.inited

/-- Embeds dist.py world_size: 1 when not distributed, else the group size. -/
def world_size (s : TorchDistState) : Nat :=
  if is_dist s then s.groupWorldSize else 1

/-- Embeds dist.py rank: 0 when not distributed, else the group rank. -/
def rank (s : TorchDistState) : Nat :=
  if is_dist s then s.groupRank else 0

/-- Embeds dist.py is_main: rank() == 0. -/
def is_main (s : TorchDistState) : Bool :=
  rank s == 0

/-! ## Teardown (src/train.py lines 250-251) -/

/-- Whether a default process group is currently live. -/
structure PGState where
  groupLive : Bool
deriving DecidableEq

/-- Models the external torch.distributed.destroy_process_group: tears the
default group down when one is live, and raises when no default group
exists. -/
def destroy_process_group (s : PGState) : Except String PGState :=
  if s.groupLive then Except.ok { groupLive := false }
  else Except.error "destroy_process_group: no default process group"

/-- Embeds the teardown logic at the end of train.py main:
if num_processes > 1: dist.destroy_process_group().
The guard is the static launch-time process count, not the live group
state. -/
def teardown (num_processes : Nat) (s : PGState) : Except String PGState :=
  if num_processes > 1 then destroy_process_group s else Except.ok s

/-! ## CollectiveReducer (src/dist.py sync_tensor, lines 69-100) -/

/-- Result of sync_tensor: either a tensor of the original shape (the
input itself, or a mean/sum reduction) or a stacked tensor with one row
per rank (reduction none). -/
inductive SyncResult where
  | tensor : Vec → SyncResult
  | stacked : List Vec → SyncResult
deriving DecidableEq

/-- Elementwise addition of two equally shaped buffers (torch +). -/
def vecAdd (v w : Vec) : Vec := List.zipWith (· + ·) v w

/-- torch.sum(stack, dim=0): elementwise sum over the rows of a stack. -/
def stackSum : List Vec → Vec
  | [] => []
  | [v] => v
  | v :: rest => vecAdd v (stackSum rest)

/-- torch.mean(stack, dim=0): elementwise sum over the rows divided by the
number of rows. -/
def stackMean (rows : List Vec) : Vec :=
  (stackSum rows).map (fun x => x / (rows.length : ℚ))

/-- Models the external collective dist.all_gather as used at dist.py
lines 87-88: every rank receives the full list of per-rank contributions
ordered by ascending rank (entry i is the contribution of rank i).  The
receive buffers are allocated as zeros_like of the callers own tensor, so
the collective requires every contribution to have the callers shape; a
mismatch faults. -/
def all_gather (n : Nat) (contrib : Fin n → Vec) (myRank : Fin n) :
    Except String (List Vec) :=
  if ∀ i : Fin n, (contrib i).length = (contrib myRank).length then
    Except.ok (List.ofFn contrib)
  else Except.error "all_gather: tensor shape mismatch across ranks"

/-- Embeds dist.py sync_tensor, executed on rank myRank of an n-rank
group in which rank i holds the tensor contrib i.  Returns the callers
own tensor unchanged when the group has a single process; otherwise
gathers, stacks, and applies the requested reduction, raising ValueError
(modelled as Except.error) for an unsupported reduction. -/
def sync_tensor (n : Nat) (myRank : Fin n) (contrib : Fin n → Vec)
    (reduction : Option String) : Except String SyncResult :=
  let num_procs := n
  if num_procs = 1 then Except.ok (SyncResult.tensor (contrib myRank))
  else
    match all_gather n contrib myRank with
    | Except.error e => Except.error e
    | Except.ok gathered =>
      let gathered_stack := gathered
      if reduction = some "mean" then
        Except.ok (SyncResult.tensor (stackMean gathered_stack))
      else if reduction = some "sum" then
        Except.ok (SyncResult.tensor (stackSum gathered_stack))
      else if reduction = some "none" ∨ reduction = none then
        Except.ok (SyncResult.stacked gathered_stack)
      else
        Except.error "reduction is not supported, must be one of mean | sum | none"

/-! ## ValueSynchronizer (src/dist.py sync_values, lines 103-123) -/

/-- Result of sync_values after .tolist(): a flat list of numbers, or a
list of per-rank lists when the reduction was none. -/
inductive ValuesResult where
  | flatVals : Vec → ValuesResult
  | perRank : List Vec → ValuesResult
deriving DecidableEq

/-- The .tolist() conversion applied to the result of sync_tensor. -/
def toValuesResult : SyncResult → ValuesResult
  | SyncResult.tensor v => ValuesResult.flatVals v
  | SyncResult.stacked rows => ValuesResult.perRank rows

/-- Embeds dist.py sync_values, executed on rank myRank of an n-rank
group in which rank i holds the value list contrib i: returns the input
list unchanged when the group has a single process, and otherwise packs
the values into a tensor, delegates to sync_tensor and unpacks. -/
def sync_values (n : Nat) (myRank : Fin n) (contrib : Fin n → Vec)
    (reduction : Option String) : Except String ValuesResult :=
  if n = 1 then Except.ok (ValuesResult.flatVals (contrib myRank))
  else (sync_tensor n myRank contrib reduction).map toValuesResult

/-! ## NestedMetricSynchronizer (src/dist.py sync_dict_values, lines 126-154)

The helper module utils.nested_dict imported by dist.py is not part of
the sources at hand; its three functions are modelled from the spec
(section 4.4) and used exactly as dist.py calls them.  A nested mapping
is modelled as an insertion-ordered association list, which is the
observable behaviour of a Python dict. -/

/-- A value stored in a nested mapping: an absent (None) leaf, a numeric
leaf, a list leaf (as produced by reduction none), or a nested mapping. -/
inductive NVal where
  | null : NVal
  | num : ℚ → NVal
  | arr : List ℚ → NVal
  | dict : List (String × NVal) → NVal

/-- An insertion-ordered nested mapping from string keys to values. -/
abbrev NDict := List (String × NVal)

/-- Modelled from the spec: utils.nested_dict.nested_keys with
keep_none=False (missing from the sources) — flattens a mapping into the
list of root-to-leaf key paths in insertion order, dropping every entry
whose leaf is absent (None). -/
def nested_keys : NDict → List (List String)
  | [] => []
  | (_, NVal.null) :: rest => nested_keys rest
  | (k, NVal.num _) :: rest => [k] :: nested_keys rest
  | (k, NVal.arr _) :: rest => [k] :: nested_keys rest
  | (k, NVal.dict sub) :: rest =>
      (nested_keys sub).map (fun p => k :: p) ++ nested_keys rest

/-- Modelled from the spec: utils.nested_dict.get_recursive (missing from
the sources) — looks a root-to-leaf key path up in a nested mapping. -/
def get_recursive (d : NDict) : List String → Option NVal
  | [] => none
  | [k] => d.lookup k
  | k :: rest =>
    match d.lookup k with
    | some (NVal.dict sub) => get_recursive sub rest
    | _ => none

/-- Python dict assignment on an association list: an existing key keeps
its position and gets the new value, a new key is appended at the end. -/
def assoc_set : NDict → String → NVal → NDict
  | [], k, v => [(k, v)]
  | (k0, v0) :: rest, k, v =>
    if k0 == k then (k0, v) :: rest else (k0, v0) :: assoc_set rest k v

/-- Modelled from the spec: utils.nested_dict.set_recursive (missing from
the sources) — writes a value at a root-to-leaf key path, creating
intermediate mappings as needed. -/
def set_recursive (d : NDict) : List String → NVal → NDict
  | [], _ => d
  | [k], v => assoc_set d k v
  | k :: rest, v =>
    match d.lookup k with
    | some (NVal.dict sub) => assoc_set d k (NVal.dict (set_recursive sub rest v))
    | _ => assoc_set d k (NVal.dict (set_recursive [] rest v))

/-- The order Python sorted uses on key paths: lists compare
lexicographically and strings compare by their code point sequences,
i.e. by the lexicographic order on their character data. -/
def pathLe (p q : List String) : Prop :=
  p.map String.data ≤ q.map String.data

instance : DecidableRel pathLe :=
  fun p q => inferInstanceAs (Decidable (p.map String.data ≤ q.map String.data))

instance : IsTotal (List String) pathLe :=
  ⟨fun a b => le_total (a.map String.data) (b.map String.data)⟩

instance : IsTrans (List String) pathLe :=
  ⟨fun _ _ _ h1 h2 => le_trans h1 h2⟩

instance : IsAntisymm (List String) pathLe :=
  ⟨fun p q h1 h2 =>
    List.map_injective_iff.mpr
      (fun a b hab => by
        cases a; cases b; exact congrArg String.mk (by simpa using hab))
      (le_antisymm h1 h2)⟩

/-- Python sorted on a list of key paths. -/
def sortPaths (ps : List (List String)) : List (List String) :=
  List.insertionSort pathLe ps

/-- The numeric value at a leaf; the default 0 is never hit on paths
produced by nested_keys of a numeric mapping. -/
def leafNum : Option NVal → ℚ
  | some (NVal.num q) => q
  | _ => 0

/-- The value list a process extracts from its own mapping at dist.py
lines 148-149: the leaves read off in sorted path order. -/
def dict_values (d : NDict) : Vec :=
  (sortPaths (nested_keys d)).map (fun k => leafNum (get_recursive d k))

/-- The flattening of a mapping into its (path, value) pairs, in
insertion order; two mappings with the same pairs up to permutation hold
the same path-to-value set. -/
def flatten_pairs (d : NDict) : List (List String × Option NVal) :=
  (nested_keys d).map (fun k => (k, get_recursive d k))

/-- The leaves written back into the output mapping at dist.py lines
151-153: numeric leaves for a reduced result, list leaves for a stacked
(reduction none) result. -/
def valuesToNVals : ValuesResult → List NVal
  | ValuesResult.flatVals vs => vs.map NVal.num
  | ValuesResult.perRank rows => rows.map NVal.arr

/-- Embeds dist.py sync_dict_values, executed on rank myRank of an
n-rank group in which rank i holds the mapping dicts i: returns the
input mapping unchanged when the group has a single process, and
otherwise sorts the flattened key paths, extracts the leaf values,
synchronises them through sync_values and reconstructs a fresh mapping
(zip truncates to the shorter list, as in Python). -/
def sync_dict_values (n : Nat) (myRank : Fin n) (dicts : Fin n → NDict)
    (reduction : Option String) : Except String NDict :=
  if n = 1 then Except.ok (dicts myRank)
  else
    let keys := sortPaths (nested_keys (dicts myRank))
    match sync_values n myRank (fun i => dict_values (dicts i)) reduction with
    | Except.error e => Except.error e
    | Except.ok res =>
      Except.ok ((keys.zip (valuesToNVals res)).foldl
        (fun out kv => set_recursive out kv.1 kv.2) [])

/-! ## LeaderFirstBarrier (src/dist.py on_main_first, lines 157-207)

The scope is modelled by the straight-line sequence of coordination
actions each process performs, read directly off the guards at lines
198-207, together with a small operational semantics in which a process
may pass a group barrier only once every process of the group has
entered the matching (equally numbered) barrier call. -/

/-- An observable action inside the scope: a barrier call or the guarded
block. -/
inductive Instr where
  | barrier : Instr
  | body : Instr
deriving DecidableEq

/-- The sequence of actions one process performs in the on_main_first
scope: a follower (enabled, distributed, not main) first waits on the
barrier; every process runs the guarded block once; the leader (enabled,
distributed, main) then signals the barrier; with join every process runs
one further barrier. -/
def on_main_first_prog (enabled join distrib main : Bool) : List Instr :=
  (if enabled && distrib && !main then [Instr.barrier] else [])
    ++ [Instr.body]
    ++ (if enabled && distrib && main then [Instr.barrier] else [])
    ++ (if enabled && join && distrib then [Instr.barrier] else [])

/-- Number of barrier instructions strictly before position pc. -/
def barriersBefore (p : List Instr) (pc : Nat) : Nat :=
  (p.take pc).count Instr.barrier

/-- A process with program p at position pc has entered its k-th barrier
call (0-indexed): it has already passed it, or it sits at it now. -/
def entered (p : List Instr) (pc k : Nat) : Prop :=
  k < barriersBefore p pc ∨ (barriersBefore p pc = k ∧ p[pc]? = some Instr.barrier)

instance (p : List Instr) (pc k : Nat) : Decidable (entered p pc k) :=
  inferInstanceAs (Decidable (k < barriersBefore p pc ∨
    (barriersBefore p pc = k ∧ p[pc]? = some Instr.barrier)))

/-- One interleaving step of the group: a process at its guarded block
advances freely; a process at its k-th barrier call advances only when
every process of the group has entered its own k-th barrier call — the
release condition of a group barrier. -/
inductive Step (n : Nat) (progs : Fin n → List Instr) :
    (Fin n → Nat) → (Fin n → Nat) → Prop where
  | bodyStep (pc : Fin n → Nat) (r : Fin n)
      (h : (progs r)[pc r]? = some Instr.body) :
      Step n progs pc (Function.update pc r (pc r + 1))
  | barrierStep (pc : Fin n → Nat) (r : Fin n)
      (h : (progs r)[pc r]? = some Instr.barrier)
      (hall : ∀ q : Fin n, entered (progs q) (pc q)
        (barriersBefore (progs r) (pc r))) :
      Step n progs pc (Function.update pc r (pc r + 1))

/-- The initial state: every process is about to execute its first
action of the scope. -/
def initPc (n : Nat) : Fin n → Nat := fun _ => 0

/-- The states of the group reachable from the start of the scope. -/
abbrev Reachable (n : Nat) (progs : Fin n → List Instr) (pc : Fin n → Nat) : Prop :=
  Relation.ReflTransGen (Step n progs) (initPc n) pc

/-- The per-rank programs of an enabled on_main_first scope in a live
distributed group: the leader is rank 0, as in dist.py is_main. -/
def progsOf (n : Nat) (join : Bool) : Fin n → List Instr :=
  fun r => on_main_first_prog true join true (decide (r.val = 0))

/-- The position of the guarded block in the program of rank r of an
enabled distributed scope: first action for the leader, second for a
follower. -/
def bodyPos (n : Nat) (r : Fin n) : Nat := if r.val = 0 then 0 else 1

/-! ## Spec-side elementwise reductions (section 8 of the spec) -/

/-- The elementwise arithmetic mean of the contributions of n ranks over
a common length L, stated as the spec words it: entry j is the average
over all ranks of entry j. -/
def elementwise_mean (n : Nat) (contrib : Fin n → Vec) (L : Nat) : Vec :=
  (List.range L).map (fun j => (∑ i : Fin n, (contrib i).getD j 0) / (n : ℚ))

/-- The elementwise sum of the contributions of n ranks over a common
length L. -/
def elementwise_sum (n : Nat) (contrib : Fin n → Vec) (L : Nat) : Vec :=
  (List.range L).map (fun j => ∑ i : Fin n, (contrib i).getD j 0)

/-! ## Concrete example data -/

/-- A two-leaf mapping inserted in the order b, a. -/
def c6dA : NDict := [("b", NVal.num 2), ("a", NVal.num 1)]

/-- The same path-to-value set as c6dA, inserted in the order a, b. -/
def c6dB : NDict := [("a", NVal.num 1), ("b", NVal.num 2)]

/-- The rank 0 mapping of the missing-key example of the spec. -/
def c7_rank0 : NDict :=
  [("loss", NVal.dict [("train", NVal.num 1)]), ("extra", NVal.num 5)]

/-- The rank 1 mapping of the missing-key example of the spec. -/
def c7_rank1 : NDict := [("loss", NVal.dict [("train", NVal.num 3)])]

/-- The per-rank mappings of the missing-key example. -/
def c7_dicts : Fin 2 → NDict :=
  fun i => if i.val = 0 then c7_rank0 else c7_rank1

/-! ## Theorems -/

/-- C1, counterexample: with world size 1 the synchronisers return their
input unchanged for the unsupported mode max instead of raising the
unsupported-reduction error, so the single-process short-circuit precedes
the validity check, contrary to the claim. -/
theorem c1_ws1_invalid_mode_no_error :
    sync_tensor 1 ⟨0, Nat.zero_lt_one⟩ (fun _ => [(1 : ℚ)]) (some "max")
        = Except.ok (SyncResult.tensor [1]) ∧
    sync_values 1 ⟨0, Nat.zero_lt_one⟩ (fun _ => [(1 : ℚ)]) (some "max")
        = Except.ok (ValuesResult.flatVals [1]) :=
  ⟨rfl, rfl⟩

/-- C1, amended: the single-process short-circuit precedes the validity
check — at world size 1 every reduction mode, supported or not, returns
the input unchanged and no error is raised; only at world size at least 2
does a mode outside mean, sum, none raise the unsupported-reduction
error (and there only after the gather). -/
theorem c1_validation_after_short_circuit (n : Nat) (myRank : Fin n)
    (contrib : Fin n → Vec) (red : Option String) :
    (n = 1 → sync_tensor n myRank contrib red
        = Except.ok (SyncResult.tensor (contrib myRank))) ∧
    (2 ≤ n → (∀ i, (contrib i).length = (contrib myRank).length) →
      red ≠ some "mean" → red ≠ some "sum" → red ≠ some "none" → red ≠ none →
      sync_tensor n myRank contrib red
        = Except.error "reduction is not supported, must be one of mean | sum | none") := by
  constructor
  · intro h
    subst h
    rfl
  · intro hn hlen h1 h2 h3 h4
    unfold sync_tensor all_gather
    rw [if_neg (by omega), if_pos hlen]
    simp only [if_neg h1, if_neg h2]
    rw [if_neg]
    simp [h3, h4]

/-- Witness for c1_validation_after_short_circuit at concrete inputs. -/
theorem c1_validation_after_short_circuit_witness :
    sync_tensor 1 ⟨0, Nat.zero_lt_one⟩ (fun _ => [(2 : ℚ)]) (some "max")
        = Except.ok (SyncResult.tensor [2]) ∧
    sync_tensor 2 ⟨0, Nat.zero_lt_two⟩ (fun _ => [(2 : ℚ)]) (some "max")
        = Except.error "reduction is not supported, must be one of mean | sum | none" :=
  ⟨(c1_validation_after_short_circuit 1 ⟨0, Nat.zero_lt_one⟩
      (fun _ => [(2 : ℚ)]) (some "max")).1 rfl,
   (c1_validation_after_short_circuit 2 ⟨0, Nat.zero_lt_two⟩
      (fun _ => [(2 : ℚ)]) (some "max")).2 (by omega) (fun _ => rfl)
      (by decide) (by decide) (by decide) (by decide)⟩

/-- C2, counterexample: the teardown of train.py is guarded by the static
launch-time process count, so invoking it on a context whose group is no
longer live (already torn down, or never brought up) raises instead of
returning, contrary to the claim that it never raises in any state. -/
theorem c2_teardown_not_idempotent :
    teardown 2 ⟨false⟩
      = Except.error "destroy_process_group: no default process group" :=
  rfl

/-- C2, amended: the teardown is a no-op and never raises when launched
with a single process; with more than one process it destroys the live
group exactly once — a further invocation, on the then torn-down context,
raises. -/
theorem c2_teardown_behaviour (np : Nat) (s : PGState) :
    (np ≤ 1 → teardown np s = Except.ok s) ∧
    (2 ≤ np → s.groupLive = true → teardown np s = Except.ok ⟨false⟩) ∧
    (2 ≤ np → s.groupLive = false →
      teardown np s
        = Except.error "destroy_process_group: no default process group") := by
  refine ⟨fun h => ?_, fun h hl => ?_, fun h hl => ?_⟩
  · simp [teardown, Nat.not_lt.mpr h]
  · simp [teardown, destroy_process_group, hl, Nat.lt_of_lt_of_le Nat.one_lt_two h]
  · simp [teardown, destroy_process_group, hl, Nat.lt_of_lt_of_le Nat.one_lt_two h]

/-- Witness for c2_teardown_behaviour at concrete inputs. -/
theorem c2_teardown_behaviour_witness :
    teardown 1 ⟨true⟩ = Except.ok ⟨true⟩ ∧
    teardown 2 ⟨true⟩ = Except.ok ⟨false⟩ ∧
    teardown 2 ⟨false⟩
      = Except.error "destroy_process_group: no default process group" :=
  ⟨(c2_teardown_behaviour 1 ⟨true⟩).1 (by omega),
   (c2_teardown_behaviour 2 ⟨true⟩).2.1 (by omega) rfl,
   (c2_teardown_behaviour 2 ⟨false⟩).2.2 (by omega) rfl⟩

/-- C3: identity law at world size 1 — for every reduction mode,
sync_values returns its input value list unchanged and sync_dict_values
returns its input mapping unchanged (both short-circuit before any
packing, flattening, sorting or communication). -/
theorem c3_identity_at_ws1 (myRank : Fin 1) (contrib : Fin 1 → Vec)
    (dicts : Fin 1 → NDict) (red : Option String) :
    sync_values 1 myRank contrib red
        = Except.ok (ValuesResult.flatVals (contrib myRank)) ∧
    sync_dict_values 1 myRank dicts red = Except.ok (dicts myRank) := by
  exact ⟨by simp [sync_values], by simp [sync_dict_values]⟩

/-- Reading a list back off its indexwise entries. -/
theorem map_range_getD (v : Vec) :
    (List.range v.length).map (fun j => v.getD j 0) = v := by
  apply List.ext_getElem
  · simp
  · intro j h1 h2
    simp [List.getD_eq_getElem, List.getElem?_eq_getElem h2]

/-- Length of an elementwise addition. -/
theorem vecAdd_length (v w : Vec) :
    (vecAdd v w).length = min v.length w.length := by
  simp [vecAdd]

/-- Entries of an elementwise addition. -/
theorem vecAdd_getD (v w : Vec) (j : Nat) (hv : j < v.length)
    (hw : j < w.length) :
    (vecAdd v w).getD j 0 = v.getD j 0 + w.getD j 0 := by
  have hj : j < (vecAdd v w).length := by
    rw [vecAdd_length]; omega
  rw [List.getD_eq_getElem _ _ hj, List.getD_eq_getElem _ _ hv,
    List.getD_eq_getElem _ _ hw]
  simp [vecAdd]

/-- The elementwise sum over a nonempty stack of equally long rows keeps
the common length. -/
theorem stackSum_length (rows : List Vec) (L : Nat) (hne : rows ≠ [])
    (h : ∀ v ∈ rows, v.length = L) : (stackSum rows).length = L := by
  induction rows with
  | nil => exact absurd rfl hne
  | cons v rest ih =>
    cases rest with
    | nil => simpa [stackSum] using h v (by simp)
    | cons w rest2 =>
      have hv : v.length = L := h v (by simp)
      have hrec : (stackSum (w :: rest2)).length = L :=
        ih (by simp) (fun x hx => h x (by simp [hx]))
      rw [show stackSum (v :: w :: rest2) = vecAdd v (stackSum (w :: rest2))
        from rfl, vecAdd_length, hv, hrec, Nat.min_self]

/-- Entry j of the elementwise sum over a nonempty stack of equally long
rows is the sum of the entries j of the rows. -/
theorem stackSum_getD (rows : List Vec) (L : Nat) (hne : rows ≠ [])
    (h : ∀ v ∈ rows, v.length = L) (j : Nat) (hj : j < L) :
    (stackSum rows).getD j 0 = (rows.map (fun v => v.getD j 0)).sum := by
  induction rows with
  | nil => exact absurd rfl hne
  | cons v rest ih =>
    cases rest with
    | nil => simp [stackSum]
    | cons w rest2 =>
      have hv : v.length = L := h v (by simp)
      have hrec : (stackSum (w :: rest2)).length = L :=
        stackSum_length _ L (by simp) (fun x hx => h x (by simp [hx]))
      rw [show stackSum (v :: w :: rest2) = vecAdd v (stackSum (w :: rest2))
          from rfl,
        vecAdd_getD _ _ j (by omega) (by omega),
        ih (by simp) (fun x hx => h x (by simp [hx]))]
      simp

/-- The code-side elementwise sum over the gathered rank-ordered stack
agrees with the spec-side elementwise sum. -/
theorem stackSum_ofFn (n : Nat) (hn : 0 < n) (contrib : Fin n → Vec)
    (L : Nat) (hL : ∀ i, (contrib i).length = L) :
    stackSum (List.ofFn contrib) = elementwise_sum n contrib L := by
  have hne : List.ofFn contrib ≠ [] := by
    simp [List.ofFn_eq_nil_iff]
    omega
  have hmem : ∀ v ∈ List.ofFn contrib, v.length = L := by
    intro v hv
    rcases (List.mem_ofFn _ _).mp hv with ⟨i, rfl⟩
    exact hL i
  apply List.ext_getElem
  · rw [stackSum_length _ L hne hmem]
    simp [elementwise_sum]
  · intro j h1 h2
    have hjL : j < L := by rwa [stackSum_length _ L hne hmem] at h1
    rw [← List.getD_eq_getElem _ 0 h1, stackSum_getD _ L hne hmem j hjL]
    simp [elementwise_sum, List.map_ofFn, Function.comp, List.sum_ofFn,
      List.getD_eq_getElem]

/-- The spec-side mean is the spec-side sum divided entrywise by the
number of ranks. -/
theorem elementwise_mean_eq_sum_div (n : Nat) (contrib : Fin n → Vec)
    (L : Nat) :
    elementwise_mean n contrib L
      = (elementwise_sum n contrib L).map (fun x => x / (n : ℚ)) := by
  simp [elementwise_mean, elementwise_sum, List.map_map, Function.comp]

/-- C4: gather-and-reduce correctness — on every group of N ranks whose
buffers share one length, sync_tensor with mode mean returns the
elementwise arithmetic mean of the rank-ordered contributions and with
mode sum their elementwise sum (the gathered sequence being ordered by
ascending rank by the all_gather contract). -/
theorem c4_mean_sum_correct (n : Nat) (hn : 0 < n) (myRank : Fin n)
    (contrib : Fin n → Vec) (L : Nat)
    (hL : ∀ i, (contrib i).length = L) :
    sync_tensor n myRank contrib (some "mean")
        = Except.ok (SyncResult.tensor (elementwise_mean n contrib L)) ∧
    sync_tensor n myRank contrib (some "sum")
        = Except.ok (SyncResult.tensor (elementwise_sum n contrib L)) := by
  by_cases h1 : n = 1
  · subst h1
    have h0 : elementwise_sum 1 contrib L
        = (List.range L).map (fun j => (contrib myRank).getD j 0) := by
      unfold elementwise_sum
      congr 1
      funext j
      rw [Fin.sum_univ_one]
      exact congrArg (fun v => List.getD v j 0)
        (congrArg contrib (Subsingleton.elim _ _))
    have hsum : contrib myRank = elementwise_sum 1 contrib L := by
      rw [h0, ← hL myRank, map_range_getD]
    have hmean : contrib myRank = elementwise_mean 1 contrib L := by
      rw [elementwise_mean_eq_sum_div, ← hsum]
      simp
    exact ⟨by rw [show sync_tensor 1 myRank contrib (some "mean")
            = Except.ok (SyncResult.tensor (contrib myRank)) from rfl, hmean],
           by rw [show sync_tensor 1 myRank contrib (some "sum")
            = Except.ok (SyncResult.tensor (contrib myRank)) from rfl, hsum]⟩
  · have hlen : ∀ i, (contrib i).length = (contrib myRank).length := by
      intro i
      rw [hL i, hL myRank]
    have hgather : all_gather n contrib myRank = Except.ok (List.ofFn contrib) := by
      simp [all_gather, hlen]
    constructor
    · unfold sync_tensor
      rw [if_neg h1, hgather]
      simp only [if_pos rfl, reduceIte]
      rw [show stackMean (List.ofFn contrib) = elementwise_mean n contrib L by
        unfold stackMean
        rw [stackSum_ofFn n hn contrib L hL, List.length_ofFn,
          elementwise_mean_eq_sum_div]]
    · unfold sync_tensor
      rw [if_neg h1, hgather]
      simp only [reduceIte]
      rw [stackSum_ofFn n hn contrib L hL,
        if_neg (show ¬ (some "sum" = some "mean") by decide)]

/-- Witness for c4_mean_sum_correct on a 2-rank group contributing the
vectors of lengths 1 holding 1 and 3. -/
theorem c4_mean_sum_correct_witness :
    sync_tensor 2 ⟨0, Nat.zero_lt_two⟩
        (fun i => if i.val = 0 then [(1 : ℚ)] else [3]) (some "mean")
      = Except.ok (SyncResult.tensor
          (elementwise_mean 2 (fun i => if i.val = 0 then [(1 : ℚ)] else [3]) 1)) ∧
    sync_tensor 2 ⟨0, Nat.zero_lt_two⟩
        (fun i => if i.val = 0 then [(1 : ℚ)] else [3]) (some "sum")
      = Except.ok (SyncResult.tensor
          (elementwise_sum 2 (fun i => if i.val = 0 then [(1 : ℚ)] else [3]) 1)) :=
  c4_mean_sum_correct 2 Nat.zero_lt_two ⟨0, Nat.zero_lt_two⟩
    (fun i => if i.val = 0 then [(1 : ℚ)] else [3]) 1
    (fun i => by fin_cases i <;> rfl)

/-- C5: stacked correctness — on every group of at least 2 ranks whose
buffers share one length, sync_tensor with mode none (string or None)
returns the stack of the contributions ordered by ascending rank: the
leading dimension equals the group size and slice r is exactly the
contribution of rank r, with no reduction applied. -/
theorem c5_stacked_correct (n : Nat) (hn : 2 ≤ n) (myRank : Fin n)
    (contrib : Fin n → Vec)
    (hL : ∀ i, (contrib i).length = (contrib myRank).length)
    (red : Option String) (hred : red = some "none" ∨ red = none) :
    sync_tensor n myRank contrib red
        = Except.ok (SyncResult.stacked (List.ofFn contrib)) ∧
    (List.ofFn contrib).length = n ∧
    ∀ r : Fin n, (List.ofFn contrib).getD r.val [] = contrib r := by
  have hgather : all_gather n contrib myRank = Except.ok (List.ofFn contrib) := by
    simp [all_gather, hL]
  refine ⟨?_, List.length_ofFn _, fun r => ?_⟩
  · unfold sync_tensor
    rw [if_neg (by omega), hgather]
    rcases hred with h | h <;> subst h <;> simp only [reduceIte] <;> simp
  · have hr : r.val < (List.ofFn contrib).length := by
      simp [List.length_ofFn]
    rw [List.getD_eq_getElem _ _ hr]
    simp

/-- Witness for c5_stacked_correct on a 2-rank group. -/
theorem c5_stacked_correct_witness :
    sync_tensor 2 ⟨0, Nat.zero_lt_two⟩
        (fun i => if i.val = 0 then [(1 : ℚ), 2] else [3, 4]) (some "none")
      = Except.ok (SyncResult.stacked
          (List.ofFn (fun i : Fin 2 => if i.val = 0 then [(1 : ℚ), 2] else [3, 4]))) ∧
    (List.ofFn (fun i : Fin 2 => if i.val = 0 then [(1 : ℚ), 2] else [3, 4])).length = 2 ∧
    ∀ r : Fin 2,
      (List.ofFn (fun i : Fin 2 => if i.val = 0 then [(1 : ℚ), 2] else [3, 4])).getD r.val []
        = (if r.val = 0 then [(1 : ℚ), 2] else [3, 4]) :=
  c5_stacked_correct 2 (le_refl 2) ⟨0, Nat.zero_lt_two⟩
    (fun i => if i.val = 0 then [(1 : ℚ), 2] else [3, 4])
    (fun i => by fin_cases i <;> rfl) (some "none") (Or.inl rfl)

/-- The first components of the flattened pairs are the flattened key
paths. -/
theorem flatten_pairs_fst (d : NDict) :
    (flatten_pairs d).map Prod.fst = nested_keys d := by
  simp only [flatten_pairs, List.map_map]
  exact List.map_id _

/-- Mappings holding the same path-to-value pairs agree at every
flattened path of the first. -/
theorem get_eq_of_flatten_perm {d1 d2 : NDict}
    (hperm : (flatten_pairs d1).Perm (flatten_pairs d2)) :
    ∀ k ∈ nested_keys d1, get_recursive d1 k = get_recursive d2 k := by
  intro k hk
  have h1 : (k, get_recursive d1 k) ∈ flatten_pairs d1 :=
    List.mem_map_of_mem _ hk
  have h2 : (k, get_recursive d1 k) ∈ flatten_pairs d2 := hperm.mem_iff.mp h1
  rcases List.mem_map.mp h2 with ⟨k2, _, heq⟩
  have hfst : k2 = k := congrArg Prod.fst heq
  subst hfst
  exact (congrArg Prod.snd heq).symm

/-- Mappings holding the same path-to-value pairs have the same flattened
key paths up to permutation, hence the same sorted key paths. -/
theorem sortPaths_eq_of_flatten_perm {d1 d2 : NDict}
    (hperm : (flatten_pairs d1).Perm (flatten_pairs d2)) :
    sortPaths (nested_keys d1) = sortPaths (nested_keys d2) := by
  have hkeys : (nested_keys d1).Perm (nested_keys d2) := by
    have h := hperm.map Prod.fst
    rwa [flatten_pairs_fst, flatten_pairs_fst] at h
  exact List.eq_of_perm_of_sorted
    (((List.perm_insertionSort pathLe _).trans hkeys).trans
      (List.perm_insertionSort pathLe _).symm)
    (List.sorted_insertionSort pathLe _)
    (List.sorted_insertionSort pathLe _)

/-- Mappings holding the same path-to-value pairs extract the same value
list in sorted path order. -/
theorem dict_values_eq_of_flatten_perm {d1 d2 : NDict}
    (hperm : (flatten_pairs d1).Perm (flatten_pairs d2)) :
    dict_values d1 = dict_values d2 := by
  have hkeys : (nested_keys d1).Perm (nested_keys d2) := by
    have h := hperm.map Prod.fst
    rwa [flatten_pairs_fst, flatten_pairs_fst] at h
  unfold dict_values
  rw [sortPaths_eq_of_flatten_perm hperm]
  apply List.map_congr_left
  intro k hk
  have hk2 : k ∈ nested_keys d2 :=
    (List.perm_insertionSort pathLe _).mem_iff.mp hk
  have hk1 : k ∈ nested_keys d1 := hkeys.mem_iff.mpr hk2
  rw [get_eq_of_flatten_perm hperm k hk1]

/-- C6: insertion-order independence of nested synchronisation — two
per-rank mapping families holding the same path-to-value pairs (in
possibly different insertion orders) yield the same sorted key paths, the
same extracted value lists, and an identical synchronised result of the
whole flatten, sort, extract, reconstruct pipeline on every rank of a
group of at least 2 processes. -/
theorem c6_order_independent (n : Nat) (hn : 2 ≤ n) (myRank : Fin n)
    (dicts1 dicts2 : Fin n → NDict) (red : Option String)
    (hperm : ∀ i, (flatten_pairs (dicts1 i)).Perm (flatten_pairs (dicts2 i))) :
    sortPaths (nested_keys (dicts1 myRank))
        = sortPaths (nested_keys (dicts2 myRank)) ∧
    dict_values (dicts1 myRank) = dict_values (dicts2 myRank) ∧
    sync_dict_values n myRank dicts1 red
        = sync_dict_values n myRank dicts2 red := by
  have hkeys := sortPaths_eq_of_flatten_perm (hperm myRank)
  have hvals : (fun i => dict_values (dicts1 i))
      = (fun i => dict_values (dicts2 i)) :=
    funext fun i => dict_values_eq_of_flatten_perm (hperm i)
  refine ⟨hkeys, dict_values_eq_of_flatten_perm (hperm myRank), ?_⟩
  unfold sync_dict_values
  rw [if_neg (by omega), if_neg (by omega), hkeys, hvals]

/-- Witness for c6_order_independent on the two insertion orders of the
same two-leaf mapping. -/
theorem c6_order_independent_witness :
    sortPaths (nested_keys c6dA) = sortPaths (nested_keys c6dB) ∧
    dict_values c6dA = dict_values c6dB ∧
    sync_dict_values 2 ⟨0, Nat.zero_lt_two⟩ (fun _ => c6dA) (some "mean")
      = sync_dict_values 2 ⟨0, Nat.zero_lt_two⟩ (fun _ => c6dB) (some "mean") :=
  c6_order_independent 2 (le_refl 2) ⟨0, Nat.zero_lt_two⟩
    (fun _ => c6dA) (fun _ => c6dB) (some "mean")
    (fun _ => by
      have hA : flatten_pairs c6dA
          = [(["b"], some (NVal.num 2)), (["a"], some (NVal.num 1))] := by
        have h1 : nested_keys c6dA = [["b"], ["a"]] := by
          simp [c6dA, nested_keys]
        simp only [flatten_pairs, h1]
        rfl
      have hB : flatten_pairs c6dB
          = [(["a"], some (NVal.num 1)), (["b"], some (NVal.num 2))] := by
        have h1 : nested_keys c6dB = [["a"], ["b"]] := by
          simp [c6dB, nested_keys]
        simp only [flatten_pairs, h1]
        rfl
      rw [hA, hB]
      exact List.Perm.swap _ _ _)

/-- C7, counterexample: on the missing-key example of the spec the two
ranks extract value lists of different shapes (rank 0 does not exclude
the key extra it alone holds), the gather contract is violated, and the
synchroniser returns the claimed mapping on neither rank. -/
theorem c7_example_not_as_claimed :
    sync_dict_values 2 ⟨0, Nat.zero_lt_two⟩ c7_dicts (some "mean")
      = Except.error "all_gather: tensor shape mismatch across ranks" ∧
    sync_dict_values 2 ⟨1, Nat.one_lt_two⟩ c7_dicts (some "mean")
      = Except.error "all_gather: tensor shape mismatch across ranks" ∧
    sync_dict_values 2 ⟨0, Nat.zero_lt_two⟩ c7_dicts (some "mean")
      ≠ Except.ok [("loss", NVal.dict [("train", NVal.num 2)])] ∧
    sync_dict_values 2 ⟨1, Nat.one_lt_two⟩ c7_dicts (some "mean")
      ≠ Except.ok [("loss", NVal.dict [("train", NVal.num 2)])] := by
  have h3 : dict_values c7_rank0 = [(5 : ℚ), 1] := by
    have h1 : nested_keys c7_rank0 = [["loss", "train"], ["extra"]] := by
      simp [c7_rank0, nested_keys]
    simp only [dict_values, h1]
    rfl
  have h4 : dict_values c7_rank1 = [(3 : ℚ)] := by
    have h1 : nested_keys c7_rank1 = [["loss", "train"]] := by
      simp [c7_rank1, nested_keys]
    simp only [dict_values, h1]
    rfl
  have h5 : (fun i : Fin 2 => dict_values (c7_dicts i))
      = (fun i : Fin 2 => if i.val = 0 then [(5 : ℚ), 1] else [3]) :=
    funext fun i => by fin_cases i <;> simp [c7_dicts, h3, h4]
  have e0 : sync_dict_values 2 ⟨0, Nat.zero_lt_two⟩ c7_dicts (some "mean")
      = Except.error "all_gather: tensor shape mismatch across ranks" := by
    unfold sync_dict_values
    rw [if_neg (by omega), h5]
    rfl
  have e1 : sync_dict_values 2 ⟨1, Nat.one_lt_two⟩ c7_dicts (some "mean")
      = Except.error "all_gather: tensor shape mismatch across ranks" := by
    unfold sync_dict_values
    rw [if_neg (by omega), h5]
    rfl
  refine ⟨e0, e1, ?_, ?_⟩
  · rw [e0]
    exact fun h => Except.noConfusion h
  · rw [e1]
    exact fun h => Except.noConfusion h

/-- C7, amended: flattening drops every entry whose leaf is absent
(None), but a numeric leaf present on one rank only is not excluded from
that ranks candidate path set: on the spec example rank 0 keeps the path
extra and extracts [5, 1] for its sorted paths [[extra], [loss, train]]
while rank 1 extracts [3], so the contributions have mismatched shapes
(2 versus 1) and the claimed elementwise mean is never formed. -/
theorem c7_drop_none_keep_own_keys :
    (∀ (k : String) (d : NDict),
      nested_keys ((k, NVal.null) :: d) = nested_keys d) ∧
    sortPaths (nested_keys c7_rank0) = [["extra"], ["loss", "train"]] ∧
    dict_values c7_rank0 = [5, 1] ∧
    dict_values c7_rank1 = [3] ∧
    (dict_values c7_rank0).length = 2 ∧
    (dict_values c7_rank1).length = 1 := by
  have h1 : nested_keys c7_rank0 = [["loss", "train"], ["extra"]] := by
    simp [c7_rank0, nested_keys]
  have h2 : nested_keys c7_rank1 = [["loss", "train"]] := by
    simp [c7_rank1, nested_keys]
  have h3 : dict_values c7_rank0 = [(5 : ℚ), 1] := by
    simp only [dict_values, h1]
    rfl
  have h4 : dict_values c7_rank1 = [(3 : ℚ)] := by
    simp only [dict_values, h2]
    rfl
  refine ⟨fun k d => by simp [nested_keys], ?_, h3, h4, ?_, ?_⟩
  · rw [h1]
    rfl
  · rw [h3]
    rfl
  · rw [h4]
    rfl

/-- Witness for c7_drop_none_keep_own_keys: a None leaf prepended to the
rank 1 mapping is dropped from its flattened paths. -/
theorem c7_drop_none_keep_own_keys_witness :
    nested_keys (("x", NVal.null) :: c7_rank1) = nested_keys c7_rank1 :=
  c7_drop_none_keep_own_keys.1 "x" c7_rank1

/-- C9: within one on_main_first scope every rank runs the guarded block
exactly once and issues exactly the same number of barrier calls — 0 when
the scope is disabled or the process is not distributed, 1 when enabled
with join off, 2 when enabled with join on — identically for the main
process and for every other rank. -/
theorem c9_symmetric_barrier_count (enabled join distrib main : Bool) :
    (on_main_first_prog enabled join distrib main).count Instr.body = 1 ∧
    (on_main_first_prog enabled join distrib main).count Instr.barrier
      = (on_main_first_prog enabled join distrib (!main)).count Instr.barrier ∧
    (on_main_first_prog enabled join distrib main).count Instr.barrier
      = (if enabled && distrib then (if join then 2 else 1) else 0) := by
  cases enabled <;> cases join <;> cases distrib <;> cases main <;> decide

/-- C10: outside a live distributed group world_size reports 1, rank
reports 0 and is_main reports true, and in every context state the
reported rank lies strictly below the reported world size. -/
theorem c10_singleton_defaults (s : TorchDistState) :
    (is_dist s = false →
      world_size s = 1 ∧ rank s = 0 ∧ is_main s = true) ∧
    rank s < world_size s := by
  constructor
  · intro h
    simp [world_size, rank, is_main, h]
  · by_cases h : is_dist s
    · simpa [world_size, rank, h] using s.rank_lt
    · simp [world_size, rank, h]

/-- The program of the leader of an enabled distributed scope. -/
theorem leader_prog (n : Nat) (join : Bool) (r : Fin n) (hr : r.val = 0) :
    progsOf n join r
      = if join then [Instr.body, Instr.barrier, Instr.barrier]
        else [Instr.body, Instr.barrier] := by
  cases join <;> simp [progsOf, on_main_first_prog, hr]

/-- The program of a follower of an enabled distributed scope. -/
theorem follower_prog (n : Nat) (join : Bool) (r : Fin n) (hr : r.val ≠ 0) :
    progsOf n join r
      = if join then [Instr.barrier, Instr.body, Instr.barrier]
        else [Instr.barrier, Instr.body] := by
  cases join <;> simp [progsOf, on_main_first_prog, hr]

/-- In a follower program the guarded block sits at position 1. -/
theorem follower_body_pos (n : Nat) (join : Bool) (r : Fin n)
    (hr : r.val ≠ 0) (i : Nat)
    (h : (progsOf n join r)[i]? = some Instr.body) : i = 1 := by
  rw [follower_prog n join r hr] at h
  cases join <;> simp only [if_pos rfl, if_neg (by decide : ¬ false = true)] at h <;>
    rcases i with _ | _ | _ | i <;>
    first
      | rfl
      | exact absurd h (by decide)
      | simp at h

/-- In the leader program the guarded block sits at position 0. -/
theorem leader_body_pos (n : Nat) (join : Bool) (r : Fin n)
    (hr : r.val = 0) (i : Nat)
    (h : (progsOf n join r)[i]? = some Instr.body) : i = 0 := by
  rw [leader_prog n join r hr] at h
  cases join <;> simp only [if_pos rfl, if_neg (by decide : ¬ false = true)] at h <;>
    rcases i with _ | _ | _ | i <;>
    first
      | rfl
      | exact absurd h (by decide)
      | simp at h

/-- In a follower program the barrier calls sit at positions 0 and 2. -/
theorem follower_barrier_pos (n : Nat) (join : Bool) (r : Fin n)
    (hr : r.val ≠ 0) (i : Nat)
    (h : (progsOf n join r)[i]? = some Instr.barrier) : i = 0 ∨ i = 2 := by
  rw [follower_prog n join r hr] at h
  cases join <;> simp only [if_pos rfl, if_neg (by decide : ¬ false = true)] at h <;>
    rcases i with _ | _ | _ | i <;>
    first
      | exact Or.inl rfl
      | exact Or.inr rfl
      | exact absurd h (by decide)
      | simp at h

/-- No barrier call is issued before position 0. -/
theorem barriersBefore_zero (p : List Instr) : barriersBefore p 0 = 0 := by
  simp [barriersBefore]

/-- A process that has entered the first barrier call of the leader
program has finished the guarded block of the leader program. -/
theorem leader_entered_zero (n : Nat) (join : Bool) (l : Fin n)
    (hl : l.val = 0) (p : Nat)
    (hent : entered (progsOf n join l) p 0) : 1 ≤ p := by
  rw [leader_prog n join l hl] at hent
  by_contra hp
  push_neg at hp
  interval_cases p
  cases join <;>
    simp only [if_pos rfl, if_neg (by decide : ¬ false = true)] at hent <;>
    exact absurd hent (by decide)

/-- With join on, both programs place one barrier call before position 2. -/
theorem barriersBefore_two (n : Nat) (r : Fin n) :
    barriersBefore (progsOf n true r) 2 = 1 := by
  by_cases hr : r.val = 0
  · rw [leader_prog n true r hr]
    rfl
  · rw [follower_prog n true r hr]
    rfl

/-- With join on, a process that has entered its second barrier call has
finished its guarded block. -/
theorem entered_one_body_done (n : Nat) (q : Fin n) (p : Nat)
    (hent : entered (progsOf n true q) p 1) : bodyPos n q < p := by
  by_cases hq : q.val = 0
  · rw [leader_prog n true q hq, if_pos rfl] at hent
    rw [show bodyPos n q = 0 by simp [bodyPos, hq]]
    by_contra hp
    push_neg at hp
    interval_cases p
    exact absurd hent (by decide)
  · rw [follower_prog n true q hq, if_pos rfl] at hent
    rw [show bodyPos n q = 1 by simp [bodyPos, hq]]
    by_contra hp
    push_neg at hp
    interval_cases p <;> exact absurd hent (by decide)

/-- A step never decreases any program counter. -/
theorem update_le (n : Nat) (f : Fin n → Nat) (r0 x : Fin n) :
    f x ≤ Function.update f r0 (f r0 + 1) x := by
  rcases eq_or_ne x r0 with h | h
  · subst h
    rw [Function.update_same]
    omega
  · rw [Function.update_noteq h]

/-- Ordering invariant of the enabled distributed on_main_first scope: in
every reachable state, once any follower has passed its entry barrier the
leader has completed its guarded block. -/
theorem c8_ordering_inv (n : Nat) (join : Bool) (pc : Fin n → Nat)
    (h : Reachable n (progsOf n join) pc) :
    ∀ r : Fin n, r.val ≠ 0 → 1 ≤ pc r → ∀ l : Fin n, l.val = 0 → 1 ≤ pc l := by
  induction h with
  | refl =>
    intro r _ h1 l _
    exact absurd h1 (by simp [initPc])
  | @tail pcb pcc _ hstep ih =>
    intro r hr h1 l hl
    cases hstep with
    | bodyStep r0 hbody =>
      by_cases hrr : r = r0
      · subst hrr
        have hpos : pcb r = 1 := follower_body_pos n join r hr _ hbody
        exact le_trans (ih r hr (by omega) l hl) (update_le n pcb r l)
      · rw [Function.update_noteq hrr] at h1
        exact le_trans (ih r hr h1 l hl) (update_le n pcb r0 l)
    | barrierStep r0 hbar hall =>
      by_cases hrr : r = r0
      · subst hrr
        rcases follower_barrier_pos n join r hr _ hbar with h0 | h2
        · have hent := hall l
          rw [h0, barriersBefore_zero] at hent
          exact le_trans (leader_entered_zero n join l hl _ hent)
            (update_le n pcb r l)
        · exact le_trans (ih r hr (by omega) l hl) (update_le n pcb r l)
      · rw [Function.update_noteq hrr] at h1
        exact le_trans (ih r hr h1 l hl) (update_le n pcb r0 l)

/-- Join invariant of the enabled distributed on_main_first scope with
join on: in every reachable state, once any rank has left the scope every
rank has finished its guarded block. -/
theorem c8_join_inv (n : Nat) (pc : Fin n → Nat)
    (h : Reachable n (progsOf n true) pc) :
    ∀ r : Fin n, 3 ≤ pc r → ∀ q : Fin n, bodyPos n q < pc q := by
  induction h with
  | refl =>
    intro r hr
    exact absurd hr (by simp [initPc])
  | @tail pcb pcc _ hstep ih =>
    intro r hr q
    cases hstep with
    | bodyStep r0 hbody =>
      by_cases hrr : r = r0
      · subst hrr
        rw [Function.update_same] at hr
        by_cases h0 : r.val = 0
        · have := leader_body_pos n true r h0 _ hbody
          omega
        · have := follower_body_pos n true r h0 _ hbody
          omega
      · rw [Function.update_noteq hrr] at hr
        exact lt_of_lt_of_le (ih r hr q) (update_le n pcb r0 q)
    | barrierStep r0 hbar hall =>
      by_cases hrr : r = r0
      · subst hrr
        rw [Function.update_same] at hr
        have hlt : pcb r < (progsOf n true r).length := by
          rcases List.getElem?_eq_some.mp hbar with ⟨hw, _⟩
          exact hw
        have hlen : (progsOf n true r).length = 3 := by
          by_cases h0 : r.val = 0
          · rw [leader_prog n true r h0]
            rfl
          · rw [follower_prog n true r h0]
            rfl
        have h2 : pcb r = 2 := by omega
        have hent := hall q
        rw [h2, barriersBefore_two n r] at hent
        exact lt_of_lt_of_le (entered_one_body_done n q _ hent)
          (update_le n pcb r q)
      · rw [Function.update_noteq hrr] at hr
        exact lt_of_lt_of_le (ih r hr q) (update_le n pcb r0 q)

/-- C8: leader-first ordering — in an enabled on_main_first scope over a
distributed group of at least 2 ranks, every reachable interleaving state
satisfies: a follower is past its entry barrier (and hence can have begun
its guarded block, which sits at position 1) only once the leader has
completed its guarded block (position 0); and with join on, a rank is
past the end of the scope only once every rank has finished its guarded
block. -/
theorem c8_leader_first (n : Nat) (_hn : 2 ≤ n) (join : Bool)
    (pc : Fin n → Nat) (hreach : Reachable n (progsOf n join) pc) :
    (∀ r : Fin n, r.val ≠ 0 → 1 ≤ pc r → ∀ l : Fin n, l.val = 0 → 1 ≤ pc l) ∧
    (join = true → ∀ r : Fin n, 3 ≤ pc r → ∀ q : Fin n, bodyPos n q < pc q) :=
  ⟨c8_ordering_inv n join pc hreach,
   fun hj => by
    subst hj
    exact c8_join_inv n pc hreach⟩

/-- Witness for c8_leader_first at the initial state of a 2-rank group. -/
theorem c8_leader_first_witness :
    (∀ r : Fin 2, r.val ≠ 0 → 1 ≤ initPc 2 r →
      ∀ l : Fin 2, l.val = 0 → 1 ≤ initPc 2 l) ∧
    (true = true → ∀ r : Fin 2, 3 ≤ initPc 2 r →
      ∀ q : Fin 2, bodyPos 2 q < initPc 2 q) :=
  c8_leader_first 2 (le_refl 2) true (initPc 2) Relation.ReflTransGen.refl

/-- Witness for c10_singleton_defaults on a never-initialised context. -/
theorem c10_singleton_defaults_witness :
    world_size ⟨false, false, 0, 1, Nat.zero_lt_one⟩ = 1 ∧
    rank ⟨false, false, 0, 1, Nat.zero_lt_one⟩ = 0 ∧
    is_main ⟨false, false, 0, 1, Nat.zero_lt_one⟩ = true :=
  (c10_singleton_defaults ⟨false, false, 0, 1, Nat.zero_lt_one⟩).1 rfl

end VF
